import Mathlib

/-!
Verification of the bfoc front end (src/bfoc.c).

The file shallowly embeds the two pieces of the program that the claims
are about:

* the input-reading loop of `main` (lines 106-137), which reads bytes,
  keeps only the eight command characters and stops at end of input —
  modelled by `readInput` over a list of byte values;
* `generate_c_source` (lines 261-351), the combined
  compressor / loop resolver / emitter — modelled by `gen` over a list of
  characters, producing the list of emitted C statements (`Stmt`) plus the
  label bookkeeping state (`GenState`).

The embedding follows the C source line by line; comments below cite the
corresponding lines of src/bfoc.c.
-/

/-- One emitted intermediate-representation statement of
`generate_c_source`.  Each constructor corresponds to one `fprintf` of a
statement into the generated C body:
`addCell n` is `tape[ptr] += n;` (line 278), `subCell n` is
`tape[ptr] -= n;` (line 285), `addPtr n` is `ptr += n;` (line 292),
`subPtr n` is `ptr -= n;` (line 299), `output` is `putchar(tape[ptr]);`
(line 303), `input` is `tape[ptr] = getchar();` (line 308), `label k` is
the label marker `loopX:` with `X = 'A'+k` (line 318), and `branch k` is
`if (tape[ptr]) goto loopX;` (line 332). -/
inductive Stmt where
  | addCell (n : Nat)
  | subCell (n : Nat)
  | addPtr (n : Nat)
  | subPtr (n : Nat)
  | output
  | input
  | label (k : Nat)
  | branch (k : Nat)
deriving DecidableEq, Repr

/-- Failure modes of `generate_c_source`.  `tooManyLoops i` is the
`label_count > 26` rejection at position `i` (lines 313-316);
`unmatchedEnd i` is the `failed to match loop end at location i` error
(lines 340-343).  `hang i` marks a character outside the eight commands at
position `i`: the C `switch` has no case for it and never advances `i`, so
the C loop spins forever; the model returns this marker instead.  `main`
only ever passes sanitized buffers to `generate_c_source`, so this case is
unreachable in the program. -/
inductive GenErr where
  | tooManyLoops (i : Nat)
  | unmatchedEnd (i : Nat)
  | hang (i : Nat)
deriving DecidableEq, Repr

/-- The input position an error is reported at. -/
def GenErr.pos : GenErr → Nat
  | .tooManyLoops i => i
  | .unmatchedEnd i => i
  | .hang i => i

/-- The mutable state of `generate_c_source` (lines 262-266) together with
the output stream.  `labelCount` is `label_count`, `labelLocs` models the
`label_locations` array as the list of values written so far (writes are
sequential, at index `label_count`), `labelStack` is `label_stack` (never
reset between `]` scans, may go negative), `labelWrites` records the index
of every write into `label_locations`, `out` is the sequence of statements
written to the output file, `err` is the error result (`none` means the
function would return 0). -/
structure GenState where
  labelCount : Nat
  labelLocs : List Nat
  labelStack : Int
  labelWrites : List Nat
  out : List Stmt
  err : Option GenErr
deriving DecidableEq, Repr

/-- Reading `input_buf[i]`.  The C buffer is NUL-terminated at
`input_buf[input_len]` (line 136), so out-of-range reads in the run
scanners see `'\0'`; the model returns `Char.ofNat 0` past the end. -/
def cGet (buf : List Char) (i : Nat) : Char :=
  buf.getD i (Char.ofNat 0)

/-- Length of the maximal run of character `c` starting at position `i`:
the count accumulated by `instr_count = 1; while (input_buf[++i] == c)
++instr_count;` when `input_buf[i] = c` (lines 276-277 and analogues). -/
def runLen (buf : List Char) (c : Char) (i : Nat) : Nat :=
  ((buf.drop i).takeWhile (fun d => d == c)).length

/-- One iteration of the backward scan for `]` (lines 325-338) at index
`j`: increment `label_stack` on `]`, decrement it on `[` and, when it has
reached zero or less, emit `if (tape[ptr]) goto loopX;` for every label
`k < label_count` whose recorded location is `j` (lines 330-335).
Returns the new `label_stack` and the statements emitted at this `j`. -/
def scanStep (buf : List Char) (locs : List Nat) (count : Nat) (j : Nat)
    (stack : Int) : Int × List Stmt :=
  let stack1 := if cGet buf j = ']' then stack + 1 else stack
  if cGet buf j = '[' then
    let stack2 := stack1 - 1
    if stack2 ≤ 0 then
      (stack2, (List.range count).filterMap fun k =>
        if locs.getD k 0 = j then some (Stmt.branch k) else none)
    else (stack2, [])
  else (stack1, [])

/-- The full backward scan `for (int j = i; j >= 0; --j)` of the `]` case
(lines 324-338), from `j` down to `0`.  The scan has no break: it keeps
running (and can keep emitting) after a match.  Returns the final
`label_stack` and all emitted statements, in emission order. -/
def scanBack (buf : List Char) (locs : List Nat) (count : Nat) :
    Nat → Int → Int × List Stmt
  | 0, stack => scanStep buf locs count 0 stack
  | j + 1, stack =>
    let r := scanStep buf locs count (j + 1) stack
    let r2 := scanBack buf locs count j r.1
    (r2.1, r.2 ++ r2.2)

/-- The result of processing one `switch` dispatch of the main loop of
`generate_c_source`: either continue at a new index with a new state, or
stop (an error `return -1`, or the spin on a non-command character). -/
inductive StepRes where
  | cont (i : Nat) (s : GenState)
  | stop (s : GenState)
deriving DecidableEq, Repr

/-- One `switch` dispatch of `generate_c_source`'s main loop
(lines 272-347) at index `i`.  The `+ - > <` cases bundle the maximal run
into one statement (lines 273-300); `.` and `,` emit singletons
(lines 301-310); `[` first checks `label_count > 26`, then emits the label
marker only (no zero test), records the location and increments the count
(lines 311-321); `]` runs the backward scan and fails if it emitted
nothing (lines 322-346).  A character outside the eight commands matches
no case and the C loop never advances: modelled as `.stop` with a `hang`
marker (unreachable on sanitized input). -/
def genStep (buf : List Char) (i : Nat) (s : GenState) : StepRes :=
  if cGet buf i = '+' then
    let n := runLen buf '+' i
    .cont (i + n) { s with out := s.out ++ [Stmt.addCell n] }
  else if cGet buf i = '-' then
    let n := runLen buf '-' i
    .cont (i + n) { s with out := s.out ++ [Stmt.subCell n] }
  else if cGet buf i = '>' then
    let n := runLen buf '>' i
    .cont (i + n) { s with out := s.out ++ [Stmt.addPtr n] }
  else if cGet buf i = '<' then
    let n := runLen buf '<' i
    .cont (i + n) { s with out := s.out ++ [Stmt.subPtr n] }
  else if cGet buf i = '.' then
    .cont (i + 1) { s with out := s.out ++ [Stmt.output] }
  else if cGet buf i = ',' then
    .cont (i + 1) { s with out := s.out ++ [Stmt.input] }
  else if cGet buf i = '[' then
    if s.labelCount > 26 then
      .stop { s with err := some (GenErr.tooManyLoops i) }
    else
      .cont (i + 1) { s with
        out := s.out ++ [Stmt.label s.labelCount],
        labelLocs := s.labelLocs ++ [i],
        labelWrites := s.labelWrites ++ [s.labelCount],
        labelCount := s.labelCount + 1 }
  else if cGet buf i = ']' then
    if (scanBack buf s.labelLocs s.labelCount i s.labelStack).2.isEmpty then
      .stop { s with
        labelStack := (scanBack buf s.labelLocs s.labelCount i s.labelStack).1,
        err := some (GenErr.unmatchedEnd i) }
    else
      .cont (i + 1) { s with
        labelStack := (scanBack buf s.labelLocs s.labelCount i s.labelStack).1,
        out := s.out ++ (scanBack buf s.labelLocs s.labelCount i s.labelStack).2 }
  else
    .stop { s with err := some (GenErr.hang i) }

/-- The main loop `for (int i = 0; i < input_len;)` of `generate_c_source`
(line 270), with explicit fuel.  Every dispatch advances `i` by at least
one or stops, so `buf.length` fuel always suffices. -/
def genLoop (buf : List Char) : Nat → Nat → GenState → GenState
  | 0, _, s => s
  | fuel + 1, i, s =>
    if i < buf.length then
      match genStep buf i s with
      | .cont i2 s2 => genLoop buf fuel i2 s2
      | .stop s2 => s2
    else s

/-- The initial state of `generate_c_source` (lines 262-266). -/
def initState : GenState :=
  { labelCount := 0, labelLocs := [], labelStack := 0, labelWrites := [],
    out := [], err := none }

/-- `generate_c_source input_buf input_len out` on a sanitized buffer
`buf` (with `input_len = buf.length`): the final state, holding the
emitted statement sequence and the error result. -/
def gen (buf : List Char) : GenState :=
  genLoop buf buf.length 0 initState

/-- The eight legal command byte values `+ - > < [ ] . ,` tested by the
`switch` of the read loop (lines 114-126), as byte values: 43, 45, 62,
60, 91, 93, 46, 44. -/
def isCmdByte (b : Nat) : Bool :=
  b == 43 || b == 45 || b == 62 || b == 60 || b == 91 || b == 93 ||
    b == 46 || b == 44

/-- The read loop of `main` (lines 106-137) over a stream of byte values:
`while ((c = fgetc(input_file)) != EOF)` with `char c`.  The byte is
stored into a plain (signed) `char`, so byte 255 becomes the value -1 and
compares equal to `EOF`, stopping the loop; any other byte is kept exactly
when it is one of the eight command bytes, otherwise silently dropped. -/
def readInput : List Nat → List Nat
  | [] => []
  | b :: bs =>
    if b = 255 then []
    else if isCmdByte b then b :: readInput bs
    else readInput bs

/-- Bracket balance of a command stream, the specification's notion used
in the Loop Resolver contract (spec section 4.3): depth goes up on `[`,
down on `]`, never below zero, and ends at zero.  This is a
specification-side definition used only to state claims about balanced
inputs; it is not part of the C source. -/
def balancedAux : List Char → Nat → Bool
  | [], d => d == 0
  | c :: rest, d =>
    if c = '[' then balancedAux rest (d + 1)
    else if c = ']' then
      match d with
      | 0 => false
      | d' + 1 => balancedAux rest d'
    else balancedAux rest d

/-- A command stream is balanced when its brackets nest properly. -/
def balanced (l : List Char) : Bool :=
  balancedAux l 0

/-- The label of a statement, when it is a label marker. -/
def stmtLabel : Stmt → Option Nat
  | .label k => some k
  | _ => none

/-- The sequence of label markers occurring in an output stream. -/
def labelsOf (out : List Stmt) : List Nat :=
  out.filterMap stmtLabel

/-- The combinable kind of a statement: `some` for the four run-merged
arithmetic statement forms, `none` for the singleton forms.  Two adjacent
statements of the same `some` kind would mean the compressor failed to
merge a run. -/
def stmtKind : Stmt → Option Nat
  | .addCell _ => some 0
  | .subCell _ => some 1
  | .addPtr _ => some 2
  | .subPtr _ => some 3
  | _ => none

/-- The combinable kind of statement emitted for a command character. -/
def charKind (c : Char) : Option Nat :=
  if c = '+' then some 0
  else if c = '-' then some 1
  else if c = '>' then some 2
  else if c = '<' then some 3
  else none

/-- Two adjacent statements are acceptable for the compressor invariant
when the first is a singleton form, or the two have different combinable
kinds: adjacent statements of the same combinable kind would mean an
unmerged run. -/
def noMerge (a b : Stmt) : Prop :=
  stmtKind a = none ∨ stmtKind a ≠ stmtKind b

/-- Claim C1 (code bug evidence): for the clear-cell program `[-]`, the
generated body is exactly the label marker, the decrement, and the
backward branch.  The `[` case (lines 311-321) emits only `loopA:`: no
test-and-branch jumping past the matching `]` when the current cell is
zero is ever emitted (the `Stmt` grammar derived from the source has no
conditional forward jump at all), so a loop whose cell is already zero
still executes its body once. -/
theorem c1_loop_begin_emits_label_only :
    (gen ['[', '-', ']']).out =
      [Stmt.label 0, Stmt.subCell 1, Stmt.branch 0] ∧
    (gen ['[', '-', ']']).err = none := by decide

/-- Claim C2 (code bug evidence): on `[[]]` the resolver emits two
backward branches for each `]`, not one.  The backward scan has no break
and `label_stack` is never reset between scans, so the inner `]` emits
`goto loopB; goto loopA;` and the outer `]` also emits
`goto loopB; goto loopA;` — its first (taken) branch targets the inner
loop's label, not its matching begin. -/
theorem c2_nested_loops_double_branch :
    (gen ['[', '[', ']', ']']).out =
      [Stmt.label 0, Stmt.label 1, Stmt.branch 1, Stmt.branch 0,
        Stmt.branch 1, Stmt.branch 0] ∧
    (gen ['[', '[', ']', ']']).err = none := by decide

/-- Claim C3 (code bug evidence): the input consisting of a single `[` is
silently accepted: `generate_c_source` returns success and emits just the
label marker.  No unclosed-loop-begin check exists anywhere in the code
(the `GenErr` type derived from the source has no such error), so no
`UnmatchedLoopBegin(0)` failure can occur. -/
theorem c3_unclosed_begin_silently_accepted :
    (gen ['[']).err = none ∧ (gen ['[']).out = [Stmt.label 0] := by decide

/-- Claim C4 (code bug evidence): a single `]` does fail at position 0,
but the if-and-only-if fails: `[[]]]` contains an unmatched `]` at
position 4, yet compilation silently succeeds, because the stale
`label_stack` value carried over from the earlier scans (it ends the
second scan at -1 and is never reset) lets the final scan reach depth
zero at the outermost `[` and emit a spurious branch. -/
theorem c4_unmatched_end_not_always_detected :
    (gen [']']).err = some (GenErr.unmatchedEnd 0) ∧
    (gen ['[', '[', ']', ']', ']']).err = none ∧
    (gen ['[', '[', ']', ']', ']']).out =
      [Stmt.label 0, Stmt.label 1, Stmt.branch 1, Stmt.branch 0,
        Stmt.branch 1, Stmt.branch 0, Stmt.branch 0] := by decide

/-- Claim C5 counterexample: on input `+]` the failure
`unmatchedEnd 1` is reported while the output stream already contains the
statement emitted for the leading `+`.  Emission is interleaved with
scanning, so the output is not unchanged on error. -/
theorem c5_output_written_before_error :
    (gen ['+', ']']).err = some (GenErr.unmatchedEnd 1) ∧
    (gen ['+', ']']).out = [Stmt.addCell 1] := by decide

/-- Claim C6 counterexample: input `+-` compiles to two statements,
`tape[ptr] += 1;` followed by `tape[ptr] -= 1;` — two adjacent
cell-arithmetic instructions — not to a single net-zero `Add(0)`.  Only
runs of the same character are merged (lines 273-300). -/
theorem c6_plus_minus_not_merged :
    (gen ['+', '-']).out = [Stmt.addCell 1, Stmt.subCell 1] ∧
    (gen ['+', '-']).out.length = 2 := by decide

/-- Claim C7 counterexample: a balanced input with 28 loops fails:
the guard `label_count > 26` (line 313) rejects the 28th `[` with the
too-many-loops error, so label assignment is bounded, contradicting the
claim that it succeeds regardless of the total number of loops. -/
theorem c7_balanced_28_loops_fails :
    balanced (List.replicate 28 '[' ++ List.replicate 28 ']') = true ∧
    (gen (List.replicate 28 '[' ++ List.replicate 28 ']')).err =
      some (GenErr.tooManyLoops 27) := by decide

/-- Claim C8 counterexample: on the byte stream `0xFF, '+'` the read loop
produces nothing, while the occurrences of legal command characters in
the stream are `['+']` (byte 43): byte 255 is stored into a plain `char`,
compares equal to `EOF`, and truncates the input, so the output is not
the filter of the whole input. -/
theorem c8_byte_255_truncates :
    readInput [255, 43] = [] ∧
    List.filter (fun b => isCmdByte b) [255, 43] = [43] := by decide

/-- Claim C9 counterexample: an input with exactly 27 `[` commands drives
a write at index 26 of the 26-entry `label_locations` array (valid
indices 0..25): the guard `label_count > 26` admits the 27th label, and
`label_locations[label_count++] = i` then writes one past the end. -/
theorem c9_27th_loop_writes_index_26 :
    26 ∈ (gen (List.replicate 27 '[')).labelWrites ∧
    (gen (List.replicate 27 '[')).err = none := by decide

theorem cGet_lt {buf : List Char} {i : Nat} (h : i < buf.length) :
    cGet buf i = buf[i] :=
  List.getD_eq_getElem buf (Char.ofNat 0) h

theorem cGet_ge {buf : List Char} {i : Nat} (h : buf.length ≤ i) :
    cGet buf i = Char.ofNat 0 :=
  List.getD_eq_default buf (Char.ofNat 0) h

theorem cGet_lt_of_ne {buf : List Char} {i : Nat} {c : Char}
    (h0 : c ≠ Char.ofNat 0) (hc : cGet buf i = c) : i < buf.length := by
  by_contra hx
  rw [cGet_ge (Nat.le_of_not_lt hx)] at hc
  exact h0 hc.symm

theorem cGet_take {buf : List Char} {j p : Nat} (h : j < p) :
    cGet (buf.take p) j = cGet buf j := by
  unfold cGet
  rw [List.getD_eq_getElem?_getD, List.getD_eq_getElem?_getD,
    List.getElem?_take, if_pos h]

theorem cGet_take_ge {buf : List Char} {j p : Nat} (h : p ≤ j) :
    cGet (buf.take p) j = Char.ofNat 0 :=
  cGet_ge (Nat.le_trans (Nat.le_trans (List.length_take p buf ▸
    Nat.min_le_left p buf.length) h) (Nat.le_refl j))

theorem runLen_eq_zero {buf : List Char} {c : Char} {i : Nat}
    (h : cGet buf i ≠ c) : runLen buf c i = 0 := by
  unfold runLen
  by_cases hl : i < buf.length
  · rw [List.drop_eq_getElem_cons hl, List.takeWhile_cons]
    rw [cGet_lt hl] at h
    simp [h]
  · rw [List.drop_eq_nil_of_le (Nat.le_of_not_lt hl)]
    rfl

theorem runLen_succ {buf : List Char} {c : Char} {i : Nat}
    (h0 : c ≠ Char.ofNat 0) (hc : cGet buf i = c) :
    runLen buf c i = runLen buf c (i + 1) + 1 := by
  have hl : i < buf.length := cGet_lt_of_ne h0 hc
  unfold runLen
  rw [List.drop_eq_getElem_cons hl, List.takeWhile_cons]
  rw [cGet_lt hl] at hc
  simp [hc]

theorem runLen_max {buf : List Char} {c : Char} (h0 : c ≠ Char.ofNat 0) :
    ∀ i, cGet buf (i + runLen buf c i) ≠ c := by
  have key : ∀ n i, buf.length - i ≤ n → cGet buf (i + runLen buf c i) ≠ c := by
    intro n
    induction n with
    | zero =>
      intro i h
      have hl : buf.length ≤ i := by omega
      have hne : cGet buf i ≠ c := by
        rw [cGet_ge hl]; exact fun hx => h0 hx.symm
      rw [runLen_eq_zero hne]
      exact hne
    | succ n ih =>
      intro i h
      by_cases hc : cGet buf i = c
      · have hl : i < buf.length := cGet_lt_of_ne h0 hc
        rw [runLen_succ h0 hc]
        have he : i + (runLen buf c (i + 1) + 1) = (i + 1) + runLen buf c (i + 1) := by
          omega
        rw [he]
        exact ih (i + 1) (by omega)
      · rw [runLen_eq_zero hc]
        exact hc
  exact fun i => key buf.length i (by omega)

theorem runLen_take {buf : List Char} {c : Char} {p : Nat}
    (h0 : c ≠ Char.ofNat 0) :
    ∀ i, i + runLen buf c i ≤ p → runLen (buf.take p) c i = runLen buf c i := by
  have key : ∀ n i, p - i ≤ n → i + runLen buf c i ≤ p →
      runLen (buf.take p) c i = runLen buf c i := by
    intro n
    induction n with
    | zero =>
      intro i h hb
      have hpi : p ≤ i := by omega
      have hc : cGet buf i ≠ c := by
        intro hx
        have := runLen_succ h0 hx
        omega
      rw [runLen_eq_zero hc, runLen_eq_zero]
      rw [cGet_take_ge hpi]
      exact fun hx => h0 hx.symm
    | succ n ih =>
      intro i h hb
      by_cases hc : cGet buf i = c
      · have h1 : runLen buf c i = runLen buf c (i + 1) + 1 := runLen_succ h0 hc
        have hip : i < p := by omega
        have hc2 : cGet (buf.take p) i = c := by rw [cGet_take hip]; exact hc
        rw [runLen_succ h0 hc2, h1]
        rw [ih (i + 1) (by omega) (by omega)]
      · have hc2 : cGet (buf.take p) i ≠ c := by
          by_cases hip : i < p
          · rw [cGet_take hip]; exact hc
          · rw [cGet_take_ge (by omega)]; exact fun hx => h0 hx.symm
        rw [runLen_eq_zero hc, runLen_eq_zero hc2]
  exact fun i hb => key p i (by omega) hb

theorem genStep_cont_basic {buf : List Char} {i : Nat} {s : GenState}
    {i2 : Nat} {s2 : GenState} (h : genStep buf i s = .cont i2 s2) :
    i < i2 ∧ s2.err = s.err := by
  unfold genStep at h
  split_ifs at h with h1 h2 h3 h4 h5 h6 h7 h8 h9 h10 <;>
    first
      | exact StepRes.noConfusion h
      | · injection h with ha hb
          subst ha
          subst hb
          refine ⟨?_, rfl⟩
          first
            | omega
            | · have := runLen_succ (c := '+') (by decide) h1; omega
            | · have := runLen_succ (c := '-') (by decide) h2; omega
            | · have := runLen_succ (c := '>') (by decide) h3; omega
            | · have := runLen_succ (c := '<') (by decide) h4; omega

theorem genStep_stop_basic {buf : List Char} {i : Nat} {s : GenState}
    {s2 : GenState} (h : genStep buf i s = .stop s2) :
    s2.out = s.out ∧ s2.labelWrites = s.labelWrites ∧
      s2.labelCount = s.labelCount ∧ ∃ e, s2.err = some e ∧ e.pos = i := by
  unfold genStep at h
  split_ifs at h with h1 h2 h3 h4 h5 h6 h7 h8 h9 h10 <;>
    first
      | exact StepRes.noConfusion h
      | · injection h with hb
          subst hb
          exact ⟨rfl, rfl, rfl, _, rfl, rfl⟩

theorem genLoop_err_pos (buf : List Char) :
    ∀ fuel i s e, s.err = none → (genLoop buf fuel i s).err = some e →
      i ≤ e.pos := by
  intro fuel
  induction fuel with
  | zero =>
    intro i s e h1 h2
    rw [show genLoop buf 0 i s = s from rfl] at h2
    rw [h1] at h2
    exact Option.noConfusion h2
  | succ fuel ih =>
    intro i s e h1 h2
    rw [genLoop] at h2
    by_cases hl : i < buf.length
    · rw [if_pos hl] at h2
      cases hg : genStep buf i s with
      | cont i2 s2 =>
        rw [hg] at h2
        obtain ⟨hlt, herr⟩ := genStep_cont_basic hg
        have := ih i2 s2 e (herr.trans h1) h2
        omega
      | stop s2 =>
        rw [hg] at h2
        obtain ⟨-, -, -, e2, he, hp⟩ := genStep_stop_basic hg
        rw [he] at h2
        injection h2 with h2
        subst h2
        omega
    · rw [if_neg hl] at h2
      rw [h1] at h2
      exact Option.noConfusion h2

theorem genLoop_fuel (buf : List Char) :
    ∀ f1 f2 i s, buf.length ≤ i + f1 → buf.length ≤ i + f2 →
      genLoop buf f1 i s = genLoop buf f2 i s := by
  intro f1
  induction f1 with
  | zero =>
    intro f2 i s h1 h2
    cases f2 with
    | zero => rfl
    | succ f2 =>
      rw [show genLoop buf 0 i s = s from rfl, genLoop, if_neg (by omega)]
  | succ f1 ih =>
    intro f2 i s h1 h2
    cases f2 with
    | zero =>
      rw [show genLoop buf 0 i s = s from rfl, genLoop, if_neg (by omega)]
    | succ f2 =>
      rw [genLoop, genLoop]
      by_cases hl : i < buf.length
      · rw [if_pos hl, if_pos hl]
        cases hg : genStep buf i s with
        | cont i2 s2 =>
          obtain ⟨hlt, -⟩ := genStep_cont_basic hg
          exact ih f2 i2 s2 (by omega) (by omega)
        | stop s2 => rfl
      · rw [if_neg hl, if_neg hl]

theorem genStep_writes_cont {buf : List Char} {i : Nat} {s : GenState}
    {i2 : Nat} {s2 : GenState} (h : genStep buf i s = .cont i2 s2) :
    (s2.labelWrites = s.labelWrites ∧ s2.labelCount = s.labelCount) ∨
      (s2.labelWrites = s.labelWrites ++ [s.labelCount] ∧
        s2.labelCount = s.labelCount + 1 ∧ s.labelCount ≤ 26) := by
  unfold genStep at h
  split_ifs at h with h1 h2 h3 h4 h5 h6 h7 h8 h9 h10 <;>
    first
      | exact StepRes.noConfusion h
      | · injection h with ha hb
          subst hb
          first
            | exact Or.inl ⟨rfl, rfl⟩
            | exact Or.inr ⟨rfl, rfl, by omega⟩

theorem genLoop_writes (buf : List Char) :
    ∀ fuel i s, (∀ k ∈ s.labelWrites, k ≤ 26) → s.labelCount ≤ 27 →
      (∀ k ∈ (genLoop buf fuel i s).labelWrites, k ≤ 26) ∧
        (genLoop buf fuel i s).labelCount ≤ 27 := by
  intro fuel
  induction fuel with
  | zero => intro i s h1 h2; exact ⟨h1, h2⟩
  | succ fuel ih =>
    intro i s h1 h2
    rw [genLoop]
    by_cases hl : i < buf.length
    · rw [if_pos hl]
      cases hg : genStep buf i s with
      | cont i2 s2 =>
        rcases genStep_writes_cont hg with ⟨hw, hc⟩ | ⟨hw, hc, hle⟩
        · exact ih i2 s2 (by rw [hw]; exact h1) (by omega)
        · refine ih i2 s2 ?_ (by omega)
          rw [hw]
          intro k hk
          rcases List.mem_append.mp hk with hk | hk
          · exact h1 k hk
          · rw [List.mem_singleton] at hk
            omega
      | stop s2 =>
        obtain ⟨-, hw, hc, -⟩ := genStep_stop_basic hg
        show (∀ k ∈ s2.labelWrites, k ≤ 26) ∧ s2.labelCount ≤ 27
        exact ⟨by rw [hw]; exact h1, by omega⟩
    · rw [if_neg hl]
      exact ⟨h1, h2⟩

/-- Claim C9 amended: every write into `label_locations` uses an index at
most 26 and `label_count` never exceeds 27 (every read in the `]` scan
uses an index below `label_count`, hence also at most 26).  So the
26-entry array is only safe up to 26 loops: index 26 — one past the end —
is reachable, as `c9_27th_loop_writes_index_26` shows, because the guard
`label_count > 26` is off by one. -/
theorem c9_label_accesses_at_most_26 (buf : List Char) :
    ((gen buf).labelWrites.all fun k => decide (k ≤ 26)) = true ∧
    (gen buf).labelCount ≤ 27 := by
  have h := genLoop_writes buf buf.length 0 initState
    (fun k hk => absurd hk (List.not_mem_nil k)) (by decide)
  refine ⟨?_, h.2⟩
  rw [List.all_eq_true]
  intro k hk
  rw [decide_eq_true_eq]
  exact h.1 k hk

theorem count_drop_step {buf : List Char} {i : Nat} (hl : i < buf.length)
    (hne : buf[i] ≠ '[') :
    (buf.drop i).count '[' = (buf.drop (i + 1)).count '[' := by
  rw [List.drop_eq_getElem_cons hl, List.count_cons]
  simp [hne]

theorem count_drop_bracket {buf : List Char} {i : Nat} (hl : i < buf.length)
    (heq : buf[i] = '[') :
    (buf.drop i).count '[' = (buf.drop (i + 1)).count '[' + 1 := by
  rw [List.drop_eq_getElem_cons hl, List.count_cons]
  simp [heq]

theorem count_drop_run {buf : List Char} {c : Char} (h0 : c ≠ Char.ofNat 0)
    (hbr : c ≠ '[') :
    ∀ i, (buf.drop i).count '[' = (buf.drop (i + runLen buf c i)).count '[' := by
  have key : ∀ n i, buf.length - i ≤ n →
      (buf.drop i).count '[' = (buf.drop (i + runLen buf c i)).count '[' := by
    intro n
    induction n with
    | zero =>
      intro i h
      have hne : cGet buf i ≠ c := by
        rw [cGet_ge (by omega)]
        exact fun hx => h0 hx.symm
      rw [runLen_eq_zero hne, Nat.add_zero]
    | succ n ih =>
      intro i h
      by_cases hc : cGet buf i = c
      · have hl : i < buf.length := cGet_lt_of_ne h0 hc
        rw [runLen_succ h0 hc]
        have h1 : (buf.drop i).count '[' = (buf.drop (i + 1)).count '[' := by
          refine count_drop_step hl ?_
          rw [← cGet_lt hl, hc]
          exact hbr
        rw [h1, show i + (runLen buf c (i + 1) + 1) = (i + 1) + runLen buf c (i + 1)
          from by omega]
        exact ih (i + 1) (by omega)
      · rw [runLen_eq_zero hc, Nat.add_zero]
  exact fun i => key buf.length i (by omega)

theorem scanStep_branch {buf : List Char} {locs : List Nat} {count j : Nat}
    {stack : Int} :
    ∀ x ∈ (scanStep buf locs count j stack).2, ∃ k, x = Stmt.branch k := by
  intro x hx
  simp only [scanStep] at hx
  split_ifs at hx
  all_goals simp at hx
  all_goals obtain ⟨k, -, -, hk⟩ := hx
  all_goals exact ⟨k, hk.symm⟩

theorem scanBack_branch (buf : List Char) (locs : List Nat) (count : Nat) :
    ∀ j stack x, x ∈ (scanBack buf locs count j stack).2 →
      ∃ k, x = Stmt.branch k := by
  intro j
  induction j with
  | zero => exact fun stack x hx => scanStep_branch x hx
  | succ j ih =>
    intro stack x hx
    simp only [scanBack] at hx
    rcases List.mem_append.mp hx with hx | hx
    · exact scanStep_branch x hx
    · exact ih _ x hx

theorem labelsOf_append (l1 l2 : List Stmt) :
    labelsOf (l1 ++ l2) = labelsOf l1 ++ labelsOf l2 :=
  List.filterMap_append l1 l2 stmtLabel

theorem labelsOf_concat_none (x : Stmt) (h : stmtLabel x = none)
    (l : List Stmt) : labelsOf (l ++ [x]) = labelsOf l := by
  rw [labelsOf_append]
  have hx : labelsOf [x] = [] := by simp [labelsOf, h]
  rw [hx, List.append_nil]

theorem labelsOf_concat_label (l : List Stmt) (k : Nat) :
    labelsOf (l ++ [Stmt.label k]) = labelsOf l ++ [k] := by
  rw [labelsOf_append]
  rfl

theorem labelsOf_concat_branches {l2 : List Stmt}
    (h : ∀ x ∈ l2, ∃ k, x = Stmt.branch k) (l : List Stmt) :
    labelsOf (l ++ l2) = labelsOf l := by
  rw [labelsOf_append]
  have h2 : labelsOf l2 = [] := by
    unfold labelsOf
    rw [List.filterMap_eq_nil_iff]
    intro a ha
    obtain ⟨k, hk⟩ := h a ha
    rw [hk]
    rfl
  rw [h2, List.append_nil]

theorem genStep_labels_cont {buf : List Char} {i : Nat} {s : GenState}
    {i2 : Nat} {s2 : GenState} (hl : i < buf.length)
    (h : genStep buf i s = .cont i2 s2) :
    ((buf.drop i).count '[' = (buf.drop i2).count '[' ∧
      labelsOf s2.out = labelsOf s.out ∧ s2.labelCount = s.labelCount) ∨
    ((buf.drop i).count '[' = (buf.drop i2).count '[' + 1 ∧
      labelsOf s2.out = labelsOf s.out ++ [s.labelCount] ∧
      s2.labelCount = s.labelCount + 1 ∧ s.labelCount ≤ 26) := by
  unfold genStep at h
  split_ifs at h with h1 h2 h3 h4 h5 h6 h7 h8 h9
  · injection h with ha hb
    subst ha
    subst hb
    refine Or.inl ⟨count_drop_run (by decide) (by decide) i, ?_, rfl⟩
    show labelsOf (s.out ++ [Stmt.addCell (runLen buf '+' i)]) = labelsOf s.out
    exact labelsOf_concat_none (Stmt.addCell (runLen buf '+' i)) rfl s.out
  · injection h with ha hb
    subst ha
    subst hb
    refine Or.inl ⟨count_drop_run (by decide) (by decide) i, ?_, rfl⟩
    show labelsOf (s.out ++ [Stmt.subCell (runLen buf '-' i)]) = labelsOf s.out
    exact labelsOf_concat_none (Stmt.subCell (runLen buf '-' i)) rfl s.out
  · injection h with ha hb
    subst ha
    subst hb
    refine Or.inl ⟨count_drop_run (by decide) (by decide) i, ?_, rfl⟩
    show labelsOf (s.out ++ [Stmt.addPtr (runLen buf '>' i)]) = labelsOf s.out
    exact labelsOf_concat_none (Stmt.addPtr (runLen buf '>' i)) rfl s.out
  · injection h with ha hb
    subst ha
    subst hb
    refine Or.inl ⟨count_drop_run (by decide) (by decide) i, ?_, rfl⟩
    show labelsOf (s.out ++ [Stmt.subPtr (runLen buf '<' i)]) = labelsOf s.out
    exact labelsOf_concat_none (Stmt.subPtr (runLen buf '<' i)) rfl s.out
  · injection h with ha hb
    subst ha
    subst hb
    refine Or.inl ⟨count_drop_step hl (by rw [← cGet_lt hl, h5]; decide),
      ?_, rfl⟩
    show labelsOf (s.out ++ [Stmt.output]) = labelsOf s.out
    exact labelsOf_concat_none Stmt.output rfl s.out
  · injection h with ha hb
    subst ha
    subst hb
    refine Or.inl ⟨count_drop_step hl (by rw [← cGet_lt hl, h6]; decide),
      ?_, rfl⟩
    show labelsOf (s.out ++ [Stmt.input]) = labelsOf s.out
    exact labelsOf_concat_none Stmt.input rfl s.out
  · injection h with ha hb
    subst ha
    subst hb
    refine Or.inr ⟨count_drop_bracket hl (by rw [← cGet_lt hl]; exact h7),
      ?_, rfl, by omega⟩
    show labelsOf (s.out ++ [Stmt.label s.labelCount]) =
      labelsOf s.out ++ [s.labelCount]
    exact labelsOf_concat_label s.out s.labelCount
  · injection h with ha hb
    subst ha
    subst hb
    refine Or.inl ⟨count_drop_step hl (by rw [← cGet_lt hl]; exact h7),
      ?_, rfl⟩
    show labelsOf
        (s.out ++ (scanBack buf s.labelLocs s.labelCount i s.labelStack).2) =
      labelsOf s.out
    exact labelsOf_concat_branches
      (fun x hx =>
        scanBack_branch buf s.labelLocs s.labelCount i s.labelStack x hx)
      s.out

theorem genLoop_labels (buf : List Char) :
    ∀ fuel i s, buf.length ≤ i + fuel →
      (genLoop buf fuel i s).err = none →
      labelsOf s.out = List.range s.labelCount →
      s.labelCount ≤ 27 →
      (genLoop buf fuel i s).labelCount = s.labelCount + (buf.drop i).count '[' ∧
        labelsOf (genLoop buf fuel i s).out =
          List.range (genLoop buf fuel i s).labelCount ∧
        (genLoop buf fuel i s).labelCount ≤ 27 := by
  intro fuel
  induction fuel with
  | zero =>
    intro i s hfuel herr hlab hle
    show s.labelCount = s.labelCount + (buf.drop i).count '[' ∧
      labelsOf s.out = List.range s.labelCount ∧ s.labelCount ≤ 27
    have hd : buf.drop i = [] := List.drop_eq_nil_of_le (by omega)
    refine ⟨?_, hlab, hle⟩
    rw [hd]
    simp
  | succ fuel ih =>
    intro i s hfuel herr hlab hle
    rw [genLoop] at herr ⊢
    by_cases hlt : i < buf.length
    · rw [if_pos hlt] at herr ⊢
      rcases hgv : genStep buf i s with ⟨i2, s2⟩ | ⟨s2⟩
      · simp only [hgv] at herr ⊢
        have hcont := genStep_cont_basic hgv
        rcases genStep_labels_cont hlt hgv with
          ⟨hcnt, hlab2, hc2⟩ | ⟨hcnt, hlab2, hc2, hle2⟩
        · have hrec := ih i2 s2 (by omega) herr
            (by rw [hlab2, hc2]; exact hlab) (by omega)
          refine ⟨?_, hrec.2.1, hrec.2.2⟩
          have h1 := hrec.1
          omega
        · have hrec := ih i2 s2 (by omega) herr
            (by rw [hlab2, hc2, hlab, List.range_succ]) (by omega)
          refine ⟨?_, hrec.2.1, hrec.2.2⟩
          have h1 := hrec.1
          omega
      · simp only [hgv] at herr
        obtain ⟨-, -, -, e, he, -⟩ := genStep_stop_basic hgv
        rw [he] at herr
        exact Option.noConfusion herr
    · rw [if_neg hlt] at herr ⊢
      have hd : buf.drop i = [] := List.drop_eq_nil_of_le (by omega)
      refine ⟨?_, hlab, hle⟩
      rw [hd]
      simp

/-- Claim C7 amended: label assignment is unique but bounded.  Whenever
`generate_c_source` succeeds, the input contains at most 27 `[` commands,
and the emitted label markers are exactly `loopA`, `loopB`, ... in order —
one fresh, distinct label per `LoopBegin` — so labels are unique per pair,
but the total loop count is capped (the 28th `[` is rejected by the
`label_count > 26` guard, as `c7_balanced_28_loops_fails` shows, and the
27th already overruns the 26-entry table). -/
theorem c7_labels_unique_but_bounded (buf : List Char)
    (h : (gen buf).err = none) :
    buf.count '[' ≤ 27 ∧
      labelsOf (gen buf).out = List.range (buf.count '[') ∧
      (labelsOf (gen buf).out).Nodup := by
  have key := genLoop_labels buf buf.length 0 initState (by omega) h rfl
    (by decide)
  have h1 : (gen buf).labelCount = buf.count '[' := by
    have hk : (gen buf).labelCount = 0 + buf.count '[' := key.1
    omega
  have h3 : (gen buf).labelCount ≤ 27 := key.2.2
  have h2 : labelsOf (gen buf).out = List.range (buf.count '[') := by
    have hk : labelsOf (gen buf).out = List.range (gen buf).labelCount :=
      key.2.1
    rw [h1] at hk
    exact hk
  refine ⟨by omega, h2, ?_⟩
  rw [h2]
  exact List.nodup_range _

/-- Witness for `c7_labels_unique_but_bounded` at the input `[]`: one
loop, one label `loopA`, generation succeeds. -/
theorem c7_labels_unique_but_bounded_w :
    List.count '[' ['[', ']'] ≤ 27 ∧
      labelsOf (gen ['[', ']']).out = List.range (List.count '[' ['[', ']']) ∧
      (labelsOf (gen ['[', ']']).out).Nodup :=
  c7_labels_unique_but_bounded ['[', ']'] (by decide)

theorem charKind_ne_plus {c : Char} (h : c ≠ '+') : charKind c ≠ some 0 := by
  unfold charKind
  split_ifs <;> simp_all

theorem charKind_ne_minus {c : Char} (h : c ≠ '-') : charKind c ≠ some 1 := by
  unfold charKind
  split_ifs <;> simp_all

theorem charKind_ne_gt {c : Char} (h : c ≠ '>') : charKind c ≠ some 2 := by
  unfold charKind
  split_ifs <;> simp_all

theorem charKind_ne_lt {c : Char} (h : c ≠ '<') : charKind c ≠ some 3 := by
  unfold charKind
  split_ifs <;> simp_all

theorem chain_ok_of_none {l : List Stmt} (h : ∀ x ∈ l, stmtKind x = none) :
    List.Chain' noMerge l := by
  induction l with
  | nil => exact List.chain'_nil
  | cons a l ih =>
    rw [List.chain'_cons']
    refine ⟨fun y _ => Or.inl (h a (List.mem_cons_self a l)), ?_⟩
    exact ih fun x hx => h x (List.mem_cons_of_mem a hx)

theorem mem_of_getLast?_eq {l : List Stmt} {a : Stmt}
    (h : l.getLast? = some a) : a ∈ l :=
  List.mem_of_mem_getLast? (Option.mem_def.mpr h)

theorem getLast?_append_some {l l2 : List Stmt} {y : Stmt}
    (h : l2.getLast? = some y) : (l ++ l2).getLast? = some y := by
  rw [List.getLast?_append, h]
  rfl

theorem genStep_chunk {buf : List Char} {i : Nat} {s : GenState}
    {i2 : Nat} {s2 : GenState} (hl : i < buf.length)
    (h : genStep buf i s = .cont i2 s2) :
    ∃ chunk, chunk ≠ [] ∧ s2.out = s.out ++ chunk ∧
      (∀ x ∈ chunk, stmtKind x = none ∨ stmtKind x = charKind (cGet buf i)) ∧
      (∀ x, chunk.getLast? = some x →
        stmtKind x = none ∨ stmtKind x ≠ charKind (cGet buf i2)) ∧
      List.Chain' noMerge chunk := by
  unfold genStep at h
  split_ifs at h with h1 h2 h3 h4 h5 h6 h7 h8 h9 h10
  · injection h with ha hb
    subst ha
    subst hb
    refine ⟨[Stmt.addCell (runLen buf '+' i)], by simp, rfl, ?_, ?_, ?_⟩
    · intro x hx
      rw [List.mem_singleton] at hx
      subst hx
      rw [h1]
      exact Or.inr rfl
    · intro x hx
      rw [show ([Stmt.addCell (runLen buf '+' i)] :
          List Stmt).getLast? = some (Stmt.addCell (runLen buf '+' i))
        from rfl] at hx
      injection hx with hx
      subst hx
      exact Or.inr fun hk =>
        charKind_ne_plus (runLen_max (by decide) i) hk.symm
    · exact List.chain'_singleton _
  · injection h with ha hb
    subst ha
    subst hb
    refine ⟨[Stmt.subCell (runLen buf '-' i)], by simp, rfl, ?_, ?_, ?_⟩
    · intro x hx
      rw [List.mem_singleton] at hx
      subst hx
      rw [h2]
      exact Or.inr rfl
    · intro x hx
      rw [show ([Stmt.subCell (runLen buf '-' i)] :
          List Stmt).getLast? = some (Stmt.subCell (runLen buf '-' i))
        from rfl] at hx
      injection hx with hx
      subst hx
      exact Or.inr fun hk =>
        charKind_ne_minus (runLen_max (by decide) i) hk.symm
    · exact List.chain'_singleton _
  · injection h with ha hb
    subst ha
    subst hb
    refine ⟨[Stmt.addPtr (runLen buf '>' i)], by simp, rfl, ?_, ?_, ?_⟩
    · intro x hx
      rw [List.mem_singleton] at hx
      subst hx
      rw [h3]
      exact Or.inr rfl
    · intro x hx
      rw [show ([Stmt.addPtr (runLen buf '>' i)] :
          List Stmt).getLast? = some (Stmt.addPtr (runLen buf '>' i))
        from rfl] at hx
      injection hx with hx
      subst hx
      exact Or.inr fun hk =>
        charKind_ne_gt (runLen_max (by decide) i) hk.symm
    · exact List.chain'_singleton _
  · injection h with ha hb
    subst ha
    subst hb
    refine ⟨[Stmt.subPtr (runLen buf '<' i)], by simp, rfl, ?_, ?_, ?_⟩
    · intro x hx
      rw [List.mem_singleton] at hx
      subst hx
      rw [h4]
      exact Or.inr rfl
    · intro x hx
      rw [show ([Stmt.subPtr (runLen buf '<' i)] :
          List Stmt).getLast? = some (Stmt.subPtr (runLen buf '<' i))
        from rfl] at hx
      injection hx with hx
      subst hx
      exact Or.inr fun hk =>
        charKind_ne_lt (runLen_max (by decide) i) hk.symm
    · exact List.chain'_singleton _
  · injection h with ha hb
    subst ha
    subst hb
    refine ⟨[Stmt.output], by simp, rfl, ?_, ?_, List.chain'_singleton _⟩
    · intro x hx
      rw [List.mem_singleton] at hx
      subst hx
      exact Or.inl rfl
    · intro x hx
      injection hx with hx
      subst hx
      exact Or.inl rfl
  · injection h with ha hb
    subst ha
    subst hb
    refine ⟨[Stmt.input], by simp, rfl, ?_, ?_, List.chain'_singleton _⟩
    · intro x hx
      rw [List.mem_singleton] at hx
      subst hx
      exact Or.inl rfl
    · intro x hx
      injection hx with hx
      subst hx
      exact Or.inl rfl
  · injection h with ha hb
    subst ha
    subst hb
    refine ⟨[Stmt.label s.labelCount], by simp, rfl, ?_, ?_,
      List.chain'_singleton _⟩
    · intro x hx
      rw [List.mem_singleton] at hx
      subst hx
      exact Or.inl rfl
    · intro x hx
      injection hx with hx
      subst hx
      exact Or.inl rfl
  · injection h with ha hb
    subst ha
    subst hb
    refine ⟨(scanBack buf s.labelLocs s.labelCount i s.labelStack).2,
      by simpa using h10, rfl, ?_, ?_, ?_⟩
    · intro x hx
      obtain ⟨k, hk⟩ :=
        scanBack_branch buf s.labelLocs s.labelCount i s.labelStack x hx
      subst hk
      exact Or.inl rfl
    · intro x hx
      obtain ⟨k, hk⟩ :=
        scanBack_branch buf s.labelLocs s.labelCount i s.labelStack x
          (mem_of_getLast?_eq hx)
      subst hk
      exact Or.inl rfl
    · refine chain_ok_of_none fun x hx => ?_
      obtain ⟨k, hk⟩ :=
        scanBack_branch buf s.labelLocs s.labelCount i s.labelStack x hx
      subst hk
      rfl

theorem genLoop_chain (buf : List Char) :
    ∀ fuel i s,
      List.Chain' noMerge s.out →
      (∀ x, s.out.getLast? = some x →
        stmtKind x = none ∨ stmtKind x ≠ charKind (cGet buf i)) →
      List.Chain' noMerge (genLoop buf fuel i s).out := by
  intro fuel
  induction fuel with
  | zero => intro i s h1 h2; exact h1
  | succ fuel ih =>
    intro i s h1 h2
    rw [genLoop]
    by_cases hlt : i < buf.length
    · rw [if_pos hlt]
      rcases hgv : genStep buf i s with ⟨i2, s2⟩ | ⟨s2⟩
      · show List.Chain' noMerge (genLoop buf fuel i2 s2).out
        obtain ⟨chunk, hne, hout, hmem, hlast, hchain⟩ := genStep_chunk hlt hgv
        refine ih i2 s2 ?_ ?_
        · rw [hout]
          rw [List.chain'_append]
          refine ⟨h1, hchain, ?_⟩
          intro x hx y hy
          by_cases hx0 : stmtKind x = none
          · exact Or.inl hx0
          · have hxne : stmtKind x ≠ charKind (cGet buf i) := by
              rcases h2 x hx with hc | hc
              · exact absurd hc hx0
              · exact hc
            rcases hmem y (List.mem_of_mem_head? hy) with hy0 | hyk
            · exact Or.inr (by rw [hy0]; exact hx0)
            · exact Or.inr (by rw [hyk]; exact hxne)
        · intro x hx
          rw [hout] at hx
          rcases hcl : chunk.getLast? with - | y
          · exact absurd (List.getLast?_eq_none_iff.mp hcl) hne
          · rw [getLast?_append_some hcl] at hx
            injection hx with hx2
            subst hx2
            exact hlast _ hcl
      · show List.Chain' noMerge s2.out
        obtain ⟨ho, -, -, -⟩ := genStep_stop_basic hgv
        rw [ho]
        exact h1
    · rw [if_neg hlt]
      exact h1

/-- Claim C6 amended: only runs of one repeated command character are
merged, and that merging is complete: the emitted statement stream never
contains two adjacent statements of the same combinable kind (two
`tape[ptr] +=`, two `tape[ptr] -=`, two `ptr +=` or two `ptr -=`).  A
`+` run followed by a `-` run still produces two separate statements —
`c6_plus_minus_not_merged` shows `+-` compiles to `tape[ptr] += 1;`
followed by `tape[ptr] -= 1;`, not to one net-zero instruction. -/
theorem c6_no_adjacent_same_kind (buf : List Char) :
    List.Chain' noMerge (gen buf).out :=
  genLoop_chain buf buf.length 0 initState List.chain'_nil
    (fun x hx => Option.noConfusion hx)

theorem readInput_eq (l : List Nat) :
    readInput l =
      (l.takeWhile fun b => b != 255).filter fun b => isCmdByte b := by
  induction l with
  | nil => rfl
  | cons b bs ih =>
    by_cases h255 : b = 255
    · subst h255
      simp [readInput]
    · by_cases hcmd : isCmdByte b <;>
        simp [readInput, h255, hcmd, ih, List.filter_cons]

theorem isCmdByte_ne_255 {b : Nat} (h : isCmdByte b = true) : b ≠ 255 := by
  simp only [isCmdByte, Bool.or_eq_true, beq_iff_eq] at h
  rcases h with h | h | h | h | h | h | h | h <;> omega

/-- Claim C8 amended: the read loop produces exactly the occurrences of
the eight legal command bytes of the input *up to the first 0xFF byte*,
in their original relative order, silently dropping every other byte (no
error is possible — the result is total), and it is idempotent: running
it on its own output is a no-op (the output consists of command bytes
only, none of which is 0xFF).  The restriction to the part before the
first 0xFF is forced by `c8_byte_255_truncates`: a 0xFF byte, stored in a
plain `char`, equals `EOF` and ends reading. -/
theorem c8_sanitizer_filters_and_idempotent (l : List Nat) :
    readInput l =
      ((l.takeWhile fun b => b != 255).filter fun b => isCmdByte b) ∧
      readInput (readInput l) = readInput l := by
  refine ⟨readInput_eq l, ?_⟩
  have hmem : ∀ b ∈ readInput l, isCmdByte b = true := by
    intro b hb
    rw [readInput_eq] at hb
    exact (List.mem_filter.mp hb).2
  rw [readInput_eq (readInput l)]
  have h1 : (readInput l).takeWhile (fun b => b != 255) = readInput l := by
    rw [List.takeWhile_eq_self_iff]
    intro b hb
    have hne := isCmdByte_ne_255 (hmem b hb)
    simpa using hne
  rw [h1]
  exact List.filter_eq_self.mpr hmem

/-- Claim C10: reading stops at the first 0xFF byte.  The read character
is stored in a plain (signed) `char` and compared with `EOF`, so byte
0xFF becomes -1 and ends the loop: every command character after the
first 0xFF byte is discarded, and the retained commands are exactly the
command bytes before it. -/
theorem c10_byte_255_stops_reading (xs ys : List Nat)
    (h : ∀ b ∈ xs, b ≠ 255) :
    readInput (xs ++ 255 :: ys) = xs.filter fun b => isCmdByte b := by
  induction xs with
  | nil => simp [readInput]
  | cons b bs ih =>
    have hb : b ≠ 255 := h b (List.mem_cons_self b bs)
    have hrest : ∀ x ∈ bs, x ≠ 255 :=
      fun x hx => h x (List.mem_cons_of_mem b hx)
    by_cases hcmd : isCmdByte b <;>
      simp [readInput, hb, hcmd, ih hrest, List.filter_cons]

/-- Witness for `c10_byte_255_stops_reading`: the byte stream
`'+', 0xFF, '-', '+'` reads as just `['+']` (byte 43). -/
theorem c10_byte_255_stops_reading_w :
    readInput ([43] ++ 255 :: [45, 43]) =
      List.filter (fun b => isCmdByte b) [43] :=
  c10_byte_255_stops_reading [43] [45, 43] (by decide)

theorem scanStep_congr {buf buf2 : List Char} (locs : List Nat)
    (count j : Nat) (stack : Int) (hc : cGet buf2 j = cGet buf j) :
    scanStep buf2 locs count j stack = scanStep buf locs count j stack := by
  unfold scanStep
  rw [hc]

theorem scanBack_congr {buf buf2 : List Char} (locs : List Nat)
    (count : Nat) :
    ∀ j stack, (∀ j2, j2 ≤ j → cGet buf2 j2 = cGet buf j2) →
      scanBack buf2 locs count j stack = scanBack buf locs count j stack := by
  intro j
  induction j with
  | zero =>
    intro stack h
    exact scanStep_congr locs count 0 stack (h 0 (Nat.le_refl 0))
  | succ j ih =>
    intro stack h
    simp only [scanBack]
    rw [scanStep_congr locs count (j + 1) stack (h (j + 1) (Nat.le_refl _))]
    rw [ih _ fun j2 hj2 => h j2 (Nat.le_trans hj2 (Nat.le_succ j))]

theorem genStep_plus {buf : List Char} {i : Nat} {s : GenState}
    {i2 : Nat} {s2 : GenState} (hc : cGet buf i = '+')
    (h : genStep buf i s = .cont i2 s2) : i2 = i + runLen buf '+' i := by
  unfold genStep at h
  rw [hc, if_pos rfl] at h
  injection h with ha hb
  exact ha.symm

theorem genStep_minus {buf : List Char} {i : Nat} {s : GenState}
    {i2 : Nat} {s2 : GenState} (hc : cGet buf i = '-')
    (h : genStep buf i s = .cont i2 s2) : i2 = i + runLen buf '-' i := by
  unfold genStep at h
  rw [hc, if_neg (by decide), if_pos rfl] at h
  injection h with ha hb
  exact ha.symm

theorem genStep_gt {buf : List Char} {i : Nat} {s : GenState}
    {i2 : Nat} {s2 : GenState} (hc : cGet buf i = '>')
    (h : genStep buf i s = .cont i2 s2) : i2 = i + runLen buf '>' i := by
  unfold genStep at h
  rw [hc, if_neg (by decide), if_neg (by decide), if_pos rfl] at h
  injection h with ha hb
  exact ha.symm

theorem genStep_lt {buf : List Char} {i : Nat} {s : GenState}
    {i2 : Nat} {s2 : GenState} (hc : cGet buf i = '<')
    (h : genStep buf i s = .cont i2 s2) : i2 = i + runLen buf '<' i := by
  unfold genStep at h
  rw [hc, if_neg (by decide), if_neg (by decide), if_neg (by decide),
    if_pos rfl] at h
  injection h with ha hb
  exact ha.symm

theorem genStep_congr_all {buf buf2 : List Char} {i : Nat} {s : GenState}
    (hc : cGet buf2 i = cGet buf i)
    (hpl : cGet buf i = '+' → runLen buf2 '+' i = runLen buf '+' i)
    (hmi : cGet buf i = '-' → runLen buf2 '-' i = runLen buf '-' i)
    (hgt : cGet buf i = '>' → runLen buf2 '>' i = runLen buf '>' i)
    (hlt : cGet buf i = '<' → runLen buf2 '<' i = runLen buf '<' i)
    (hs : scanBack buf2 s.labelLocs s.labelCount i s.labelStack =
      scanBack buf s.labelLocs s.labelCount i s.labelStack) :
    genStep buf2 i s = genStep buf i s := by
  unfold genStep
  rw [hc, hs]
  by_cases h1 : cGet buf i = '+'
  · rw [hpl h1, if_pos h1, if_pos h1]
  · rw [if_neg h1, if_neg h1]
    by_cases h2 : cGet buf i = '-'
    · rw [hmi h2, if_pos h2, if_pos h2]
    · rw [if_neg h2, if_neg h2]
      by_cases h3 : cGet buf i = '>'
      · rw [hgt h3, if_pos h3, if_pos h3]
      · rw [if_neg h3, if_neg h3]
        by_cases h4 : cGet buf i = '<'
        · rw [hlt h4, if_pos h4]
        · rw [if_neg h4, if_neg h4]

theorem genStep_take_cont {buf : List Char} {i : Nat} {s : GenState}
    {i2 : Nat} {s2 : GenState} {p : Nat}
    (h : genStep buf i s = .cont i2 s2) (hl : i < buf.length)
    (hip : i < p) (hi2 : i2 ≤ p) :
    genStep (buf.take p) i s = .cont i2 s2 := by
  rw [← h]
  refine genStep_congr_all (cGet_take hip) ?_ ?_ ?_ ?_ ?_
  · intro hcc
    refine runLen_take (by decide) i ?_
    have := genStep_plus hcc h
    omega
  · intro hcc
    refine runLen_take (by decide) i ?_
    have := genStep_minus hcc h
    omega
  · intro hcc
    refine runLen_take (by decide) i ?_
    have := genStep_gt hcc h
    omega
  · intro hcc
    refine runLen_take (by decide) i ?_
    have := genStep_lt hcc h
    omega
  · refine scanBack_congr s.labelLocs s.labelCount i s.labelStack ?_
    intro j2 hj2
    exact cGet_take (by omega)

theorem genLoop_take (buf : List Char) :
    ∀ fuel i s e, s.err = none → (genLoop buf fuel i s).err = some e →
      (genLoop (buf.take e.pos) fuel i s).out = (genLoop buf fuel i s).out ∧
        (genLoop (buf.take e.pos) fuel i s).err = none := by
  intro fuel
  induction fuel with
  | zero =>
    intro i s e h1 h2
    rw [show genLoop buf 0 i s = s from rfl] at h2
    rw [h1] at h2
    exact Option.noConfusion h2
  | succ fuel ih =>
    intro i s e h1 h2
    rw [genLoop] at h2
    by_cases hlt : i < buf.length
    · rw [if_pos hlt] at h2
      rcases hgv : genStep buf i s with ⟨i2, s2⟩ | ⟨s2⟩
      · simp only [hgv] at h2
        have hcb := genStep_cont_basic hgv
        have herr2 : s2.err = none := by rw [hcb.2, h1]
        have hpos := genLoop_err_pos buf fuel i2 s2 e herr2 h2
        have hip : i < e.pos := by omega
        have hstep : genStep (buf.take e.pos) i s = .cont i2 s2 :=
          genStep_take_cont hgv hlt hip (by omega)
        have hlen2 : i < (buf.take e.pos).length := by
          rw [List.length_take]
          omega
        rw [genLoop]
        rw [if_pos hlen2, hstep]
        rw [genLoop]
        rw [if_pos hlt, hgv]
        exact ih i2 s2 e herr2 h2
      · simp only [hgv] at h2
        obtain ⟨ho, -, -, e2, he, hp⟩ := genStep_stop_basic hgv
        rw [he] at h2
        injection h2 with h2
        subst h2
        rw [genLoop]
        rw [hp]
        have hlen2 : ¬ i < (buf.take i).length := by
          rw [List.length_take]
          omega
        rw [if_neg hlen2]
        rw [genLoop]
        rw [if_pos hlt, hgv]
        exact ⟨ho.symm, h1⟩
    · rw [if_neg hlt] at h2
      rw [h1] at h2
      exact Option.noConfusion h2

/-- Claim C5 amended: an UnmatchedLoopEnd (or too-many-loops) failure is
fatal — generation stops at the offending instruction and `main` returns
without invoking gcc — but the emitter is interleaved with scanning, so
when the error is reported the output stream already contains exactly
the statements of a clean compilation of the input up to the error
position; it is not unchanged (`c5_output_written_before_error` gives `+]`).
The partial output is discarded by the caller, never compiled. -/
theorem c5_error_stops_compilation_output_kept (buf : List Char) (e : GenErr)
    (h : (gen buf).err = some e) :
    (gen buf).out = (gen (buf.take e.pos)).out ∧
      (gen (buf.take e.pos)).err = none := by
  have hp := genLoop_take buf buf.length 0 initState e rfl h
  have hf : genLoop (buf.take e.pos) buf.length 0 initState =
      genLoop (buf.take e.pos) (buf.take e.pos).length 0 initState := by
    refine genLoop_fuel (buf.take e.pos) buf.length (buf.take e.pos).length
      0 initState ?_ ?_
    · rw [List.length_take]
      omega
    · omega
  constructor
  · have h1 : (gen buf).out =
        (genLoop (buf.take e.pos) buf.length 0 initState).out := hp.1.symm
    rw [hf] at h1
    exact h1
  · have h2 : (genLoop (buf.take e.pos) buf.length 0 initState).err = none :=
      hp.2
    rw [hf] at h2
    exact h2

/-- Witness for `c5_error_stops_compilation_output_kept` at input `+]`, which
fails with UnmatchedLoopEnd at position 1: the output equals the clean
compilation of the prefix `+`. -/
theorem c5_error_stops_compilation_output_kept_w :
    (gen ['+', ']']).out =
      (gen (['+', ']'].take (GenErr.unmatchedEnd 1).pos)).out ∧
      (gen (['+', ']'].take (GenErr.unmatchedEnd 1).pos)).err = none :=
  c5_error_stops_compilation_output_kept ['+', ']'] (GenErr.unmatchedEnd 1) (by decide)
